import Mathlib

/-
Verification of the backtest core of `app.py` (correlation lead/lag strategy
backtester).  The numeric type of the program (Python float) is modelled by ℚ;
pandas NaN values are modelled by `none : Option ℚ`.  Each definition below is a
direct transcription of the line of `app.py` named in its doc comment.
-/

namespace Trade2

/-- Daily returns of a price list: `pct_change().fillna(0)` (app.py line 48).
`pct_change` yields NaN on the first row and `p[i]/p[i-1] - 1` afterwards;
`fillna(0)` turns the leading NaN into 0. -/
def retsOf (prices : List ℚ) : List ℚ :=
  match prices with
  | [] => []
  | p :: tl => 0 :: List.zipWith (fun prev cur => cur / prev - 1) (p :: tl) tl

/-- Comparison of a possibly-NaN value with a rational: in numpy, any
comparison against NaN is false.  `none` models NaN. -/
def gtNaN : Option ℚ → ℚ → Bool
  | some x, t => decide (t < x)
  | none, _ => false

/-- The signal of app.py line 44:
`np.where((df[GuideReturnFuture] > 0) & (df[Corr] > 0.2), 1, 0)`.
The correlation threshold is a parameter `thresh`; the source instantiates it
with the constant `0.2`. -/
def Position (thresh : ℚ) (g c : Option ℚ) : ℕ :=
  if gtNaN g 0 && gtNaN c thresh then 1 else 0

/-- The Position column over two aligned columns of possibly-NaN inputs. -/
def positionSeries (thresh : ℚ) (gs cs : List (Option ℚ)) : List ℕ :=
  List.zipWith (Position thresh) gs cs

/-- Transition detection of app.py line 45: `Position.diff().abs().fillna(0)`.
`diff` is NaN on the first row (so `fillna(0)` makes it 0) and
`pos[i] - pos[i-1]` afterwards; `abs` then gives `|pos[i] - pos[i-1]|`. -/
def Trade (pos : List ℕ) : List ℕ :=
  match pos with
  | [] => []
  | p :: tl =>
      0 :: List.zipWith (fun (prev cur : ℕ) => ((cur : ℤ) - (prev : ℤ)).natAbs) (p :: tl) tl

/-- Capital held after iteration `i` of the backtest loop, app.py lines 52-61:
```
c_strat = initial_cap
for i in range(len(df)):
    if i > 0 and pos_vals[i-1] == 1:
        c_strat *= (1 + rets[i])
    if trade_vals[i] == 1:
        c_strat *= (1 - trading_fees)
    strat_path.append(c_strat)
```
`stratCap i` is the value of `c_strat` appended at iteration `i`.  List reads
`pos_vals[i-1]`, `rets[i]`, `trade_vals[i]` are modelled with `getD _ _ 0`
(all indices are in bounds in the program). -/
def stratCap (fee init : ℚ) (rets : List ℚ) (pos trade : List ℕ) : ℕ → ℚ
  | 0 => if trade.getD 0 0 = 1 then init * (1 - fee) else init
  | i + 1 =>
      let c := stratCap fee init rets pos trade i
      let c2 := if pos.getD i 0 = 1 then c * (1 + rets.getD (i + 1) 0) else c
      if trade.getD (i + 1) 0 = 1 then c2 * (1 - fee) else c2

/-- The Strategy equity curve (app.py line 63): the list of capitals appended
by the loop, one per day. -/
def strat_path (fee init : ℚ) (rets : List ℚ) (pos trade : List ℕ) : List ℚ :=
  (List.range rets.length).map (stratCap fee init rets pos trade)

/-- Buy-and-hold curve, app.py line 64:
`(df[target] / df[target].iloc[0]) * initial_cap`. -/
def BuyHold (init : ℚ) (prices : List ℚ) : List ℚ :=
  match prices with
  | [] => []
  | p0 :: tl => (p0 :: tl).map (fun p => p / p0 * init)

/-- The monthly DCA budget, app.py line 68: `initial_cap / 12`. -/
def monthly_budget (init : ℚ) : ℚ := init / 12

/-- First-trading-day-of-month flags.  The source condition (app.py line 72)
`date == df[df.index.month == date.month].index[0]` holds exactly when no
earlier row of the window carries the same calendar month (dates are strictly
increasing, so the current date equals the first date of its month iff no
earlier row has that month).  `seen` is the list of months of earlier rows. -/
def firstFlags (seen : List ℕ) : List ℕ → List Bool
  | [] => []
  | m :: tl => (! seen.contains m) :: firstFlags (m :: seen) tl

/-- State trace of the DCA loop (app.py lines 67-75):
```
dca_cap = 0; monthly_budget = initial_cap / 12; cash_spent = 0; shares = 0
for date, row in df.iterrows():
    if date == df[df.index.month == date.month].index[0] and cash_spent < initial_cap:
        shares += (monthly_budget * (1 - trading_fees)) / row[target]
        cash_spent += monthly_budget
    df.loc[date, 'DCA'] = (shares * row[target]) + (initial_cap - cash_spent)
```
Each emitted triple is `(cash_spent, shares, DCA value)` after the row's
iteration. -/
def DCA_states (fee init budget : ℚ) : ℚ → ℚ → List (Bool × ℚ) → List (ℚ × ℚ × ℚ)
  | _, _, [] => []
  | cash, shares, (flag, p) :: tl =>
      if flag = true ∧ cash < init then
        let shares2 := shares + budget * (1 - fee) / p
        let cash2 := cash + budget
        (cash2, shares2, shares2 * p + (init - cash2)) ::
          DCA_states fee init budget cash2 shares2 tl
      else
        (cash, shares, shares * p + (init - cash)) ::
          DCA_states fee init budget cash shares tl

/-- The DCA loop run on a window described by the months of its rows and the
target prices, started from zero cash and zero shares as in the source. -/
def DCA (fee init : ℚ) (months : List ℕ) (prices : List ℚ) : List (ℚ × ℚ × ℚ) :=
  DCA_states fee init (monthly_budget init) 0 0 ((firstFlags [] months).zip prices)

/-- The DCA equity curve: the `DCA` column written by the loop. -/
def DCA_curve (fee init : ℚ) (months : List ℕ) (prices : List ℚ) : List ℚ :=
  (DCA fee init months prices).map (fun s => s.2.2)

/-- Total-return percentage, app.py lines 78-80:
`((curve.iloc[-1] / initial_cap) - 1) * 100`.  Note the denominator is the
initial capital constant, not the curve's first element. -/
def perf (init : ℚ) (curve : List ℚ) : ℚ := (curve.getLastD 0 / init - 1) * 100

theorem retsOf_length (prices : List ℚ) : (retsOf prices).length = prices.length := by
  cases prices with
  | nil => rfl
  | cons p tl => simp [retsOf]

theorem strat_path_length (fee init : ℚ) (rets : List ℚ) (pos trade : List ℕ) :
    (strat_path fee init rets pos trade).length = rets.length := by
  simp [strat_path]

theorem strat_path_getD (fee init : ℚ) (rets : List ℚ) (pos trade : List ℕ)
    (i : ℕ) (hi : i < rets.length) :
    (strat_path fee init rets pos trade).getD i 0 = stratCap fee init rets pos trade i := by
  have hlen : i < ((List.range rets.length).map (stratCap fee init rets pos trade)).length := by
    simpa using hi
  rw [strat_path, List.getD_eq_getElem _ _ hlen, List.getElem_map, List.getElem_range]

theorem Trade_getD_zero (pos : List ℕ) : (Trade pos).getD 0 0 = 0 := by
  cases pos <;> rfl

example : retsOf [100, 100, 110, 110] = [0, 0, 1/10, 0] := by norm_num [retsOf]
example : Trade [0, 1, 1, 0] = [0, 1, 0, 1] := by norm_num [Trade]
example :
    strat_path (1/10) 10000 (retsOf [100, 100, 110, 110]) [0, 1, 1, 0] (Trade [0, 1, 1, 0])
      = [10000, 9000, 9900, 8910] := by
  norm_num [strat_path, stratCap, Trade, retsOf, List.range_succ]
example : DCA_curve (1/10) 10000 [1] [100] = [29750/3] := by
  norm_num [DCA_curve, DCA, DCA_states, firstFlags, monthly_budget]

/-- C1 counterexample: the loop applies the transaction fee at day 0 whenever the
trade series flags day 0 (the fee multiplication is not guarded by `i > 0`), so
with a trade event flagged on day 0, feeRate 1/2 and initial capital 10000 the
day-0 capital is 5000, not the initial capital — contradicting the claim that
no fee is applied on day 0 even if a trade event is flagged there. -/
theorem c1_day0_fee_cex :
    (strat_path (1/2) 10000 (retsOf [100]) [1] [1]).getD 0 0 = 5000 ∧
      ((5000 : ℚ) ≠ 10000) := by
  constructor
  · norm_num [strat_path, stratCap, retsOf, List.range_succ]
  · norm_num

/-- C1 (amended): for every price series, position signal, trade-event series,
feeRate and initialCapital, on each day `i > 0` the capital is first multiplied
by `1 + dailyReturn i` if and only if the position on day `i - 1` was 1, and
afterwards multiplied by `1 - feeRate` if and only if a trade event is flagged
on day `i`; on day 0 no return is applied, but the fee multiplication is
applied on day 0 as well whenever a trade event is flagged there, so the day-0
capital equals initialCapital exactly when day 0 carries no trade flag and
equals `initialCapital * (1 - feeRate)` otherwise. -/
theorem c1_backtest_step (fee init : ℚ) (prices : List ℚ) (pos trade : List ℕ) :
    (strat_path fee init (retsOf prices) pos trade).length = prices.length ∧
    (0 < prices.length →
      (strat_path fee init (retsOf prices) pos trade).getD 0 0
        = if trade.getD 0 0 = 1 then init * (1 - fee) else init) ∧
    (∀ i, 0 < i → i < prices.length →
      (strat_path fee init (retsOf prices) pos trade).getD i 0
        = (let c := (strat_path fee init (retsOf prices) pos trade).getD (i - 1) 0
           let c2 := if pos.getD (i - 1) 0 = 1
                     then c * (1 + (retsOf prices).getD i 0) else c
           if trade.getD i 0 = 1 then c2 * (1 - fee) else c2)) := by
  have hlen := retsOf_length prices
  refine ⟨by rw [strat_path_length, hlen], ?_, ?_⟩
  · intro h
    rw [strat_path_getD _ _ _ _ _ 0 (by omega)]
    rfl
  · intro i h0 hi
    obtain ⟨j, rfl⟩ : ∃ j, i = j + 1 := ⟨i - 1, by omega⟩
    rw [strat_path_getD _ _ _ _ _ (j + 1) (by omega),
        strat_path_getD _ _ _ _ _ ((j + 1) - 1) (by omega)]
    rfl

/-- C1 witness: the amended step characterisation instantiated on the scenario
data of the spec at day 0 and day 2. -/
theorem c1_backtest_step_witness :
    (strat_path (1/10) 10000 (retsOf [100, 100, 110, 110]) [0, 1, 1, 0] [0, 1, 0, 1]).getD 0 0
      = (if ([0, 1, 0, 1] : List ℕ).getD 0 0 = 1 then (10000 : ℚ) * (1 - 1/10) else 10000) ∧
    (strat_path (1/10) 10000 (retsOf [100, 100, 110, 110]) [0, 1, 1, 0] [0, 1, 0, 1]).getD 2 0
      = (let c := (strat_path (1/10) 10000 (retsOf [100, 100, 110, 110])
                     [0, 1, 1, 0] [0, 1, 0, 1]).getD (2 - 1) 0
         let c2 := if ([0, 1, 1, 0] : List ℕ).getD (2 - 1) 0 = 1
                   then c * (1 + (retsOf [100, 100, 110, 110]).getD 2 0) else c
         if ([0, 1, 0, 1] : List ℕ).getD 2 0 = 1 then c2 * (1 - 1/10) else c2) := by
  have h := c1_backtest_step (1/10) 10000 [100, 100, 110, 110] [0, 1, 1, 0] [0, 1, 0, 1]
  exact ⟨h.2.1 (by norm_num), h.2.2 2 (by norm_num) (by norm_num)⟩

/-- C4: on the spec's scenario — target prices [100, 100, 110, 110], signal
[0, 1, 1, 0], feeRate 0.1, initialCapital 10000, with the trade events derived
from the signal — the strategy curve is [10000, 9000, 9900, 8910] and the
final capital is exactly 8910. -/
theorem c4_scenario :
    strat_path (1/10) 10000 (retsOf [100, 100, 110, 110]) [0, 1, 1, 0] (Trade [0, 1, 1, 0])
      = [10000, 9000, 9900, 8910] ∧
    (strat_path (1/10) 10000 (retsOf [100, 100, 110, 110]) [0, 1, 1, 0]
        (Trade [0, 1, 1, 0])).getLastD 0 = 8910 := by
  constructor <;>
    norm_num [strat_path, stratCap, Trade, retsOf, List.range_succ]

theorem strat_first (fee init : ℚ) (rets : List ℚ) (pos : List ℕ) (h : rets ≠ []) :
    (strat_path fee init rets pos (Trade pos)).getD 0 0 = init := by
  rw [strat_path_getD _ _ _ _ _ 0 (List.length_pos.mpr h)]
  show (if (Trade pos).getD 0 0 = 1 then init * (1 - fee) else init) = init
  rw [Trade_getD_zero]
  norm_num

theorem buyHold_first (init p : ℚ) (ps : List ℚ) (hp : p ≠ 0) :
    (BuyHold init (p :: ps)).getD 0 0 = init := by
  simp [BuyHold, div_self hp]

theorem dca_first (fee init p : ℚ) (ps : List ℚ) (m : ℕ) (ms : List ℕ)
    (hp : p ≠ 0) (hinit : 0 < init) :
    (DCA_curve fee init (m :: ms) (p :: ps)).getD 0 0 = init - init / 12 * fee := by
  have hflag : firstFlags [] (m :: ms) = true :: firstFlags [m] ms := by
    simp [firstFlags]
  simp only [DCA_curve, DCA, hflag, List.zip_cons_cons, DCA_states, monthly_budget]
  rw [if_pos ⟨rfl, hinit⟩]
  simp only [List.map_cons, List.getD_cons_zero]
  field_simp
  ring

/-- C2 counterexample: with valid inputs — positive price, feeRate 1/10 in
[0,1), initialCapital 10000 > 0 — the DCA curve's first entry is 29750/3
(about 9916.67), not the initial capital: the first window day is always the
first trading day of its month, so a tranche is bought immediately and the fee
taken out of it lowers day-0 capital below initialCapital. -/
theorem c2_dca_first_cex :
    (DCA_curve (1/10) 10000 [1] [100]).getD 0 0 = 29750/3 ∧
      ((29750/3 : ℚ) ≠ 10000) := by
  constructor
  · norm_num [DCA_curve, DCA, DCA_states, firstFlags, monthly_budget]
  · norm_num

/-- C2 (amended): for every valid input (positive prices, initialCapital > 0),
the strategy curve and the buy-and-hold curve start at exactly initialCapital,
while the DCA curve starts at `initialCapital - (initialCapital/12) * feeRate`,
which equals initialCapital only when feeRate = 0. -/
theorem c2_first_values (fee init p : ℚ) (ps : List ℚ) (pos : List ℕ)
    (m : ℕ) (ms : List ℕ) (hp : 0 < p) (hinit : 0 < init) :
    (strat_path fee init (retsOf (p :: ps)) pos (Trade pos)).getD 0 0 = init ∧
    (BuyHold init (p :: ps)).getD 0 0 = init ∧
    (DCA_curve fee init (m :: ms) (p :: ps)).getD 0 0 = init - init / 12 * fee := by
  exact ⟨strat_first fee init _ pos (by simp [retsOf]),
    buyHold_first init p ps (ne_of_gt hp),
    dca_first fee init p ps m ms (ne_of_gt hp) hinit⟩

/-- C2 witness: the amended first-value facts on a concrete one-day window. -/
theorem c2_first_values_witness :
    (strat_path (1/10) 10000 (retsOf [100]) [0] (Trade [0])).getD 0 0 = 10000 ∧
    (BuyHold 10000 [100]).getD 0 0 = 10000 ∧
    (DCA_curve (1/10) 10000 [1] [100]).getD 0 0 = 10000 - 10000 / 12 * (1/10) :=
  c2_first_values (1/10) 10000 100 [] [0] 1 [] (by norm_num) (by norm_num)

/-- C3 counterexample: the reported DCA percentage divides by the constant
initial capital, not by the curve's first value; on a one-day window with
feeRate 1/10 the DCA curve is the single value 29750/3, so the code reports
(29750/3 / 10000 - 1) * 100 = -5/6 while the claim's formula gives 0. -/
theorem c3_dca_perf_cex :
    perf 10000 (DCA_curve (1/10) 10000 [1] [100])
      ≠ ((DCA_curve (1/10) 10000 [1] [100]).getLastD 0
          / (DCA_curve (1/10) 10000 [1] [100]).getD 0 0 - 1) * 100 := by
  norm_num [perf, DCA_curve, DCA, DCA_states, firstFlags, monthly_budget]

/-- C3 (amended): the reported percentage is `(curve.last / initialCapital - 1)
* 100` for each of the three curves; for the strategy and buy-and-hold curves
this coincides with `(curve.last / curve.first - 1) * 100` because their first
value is initialCapital, but for the DCA curve the two formulas differ whenever
feeRate > 0 (its first value then lies below initialCapital). -/
theorem c3_perf_formula (fee init p : ℚ) (ps : List ℚ) (pos : List ℕ)
    (hp : 0 < p) (hinit : 0 < init) :
    perf init (strat_path fee init (retsOf (p :: ps)) pos (Trade pos))
      = ((strat_path fee init (retsOf (p :: ps)) pos (Trade pos)).getLastD 0
          / (strat_path fee init (retsOf (p :: ps)) pos (Trade pos)).getD 0 0 - 1) * 100 ∧
    perf init (BuyHold init (p :: ps))
      = ((BuyHold init (p :: ps)).getLastD 0
          / (BuyHold init (p :: ps)).getD 0 0 - 1) * 100 ∧
    ∀ curve : List ℚ, perf init curve = (curve.getLastD 0 / init - 1) * 100 := by
  refine ⟨?_, ?_, fun curve => rfl⟩
  · rw [strat_first fee init _ pos (by simp [retsOf])]
    rfl
  · rw [buyHold_first init p ps (ne_of_gt hp)]
    rfl

/-- C3 witness: the amended percentage facts on a concrete one-day window. -/
theorem c3_perf_formula_witness :
    perf 10000 (strat_path (1/10) 10000 (retsOf [100]) [0] (Trade [0]))
      = ((strat_path (1/10) 10000 (retsOf [100]) [0] (Trade [0])).getLastD 0
          / (strat_path (1/10) 10000 (retsOf [100]) [0] (Trade [0])).getD 0 0 - 1) * 100 ∧
    perf 10000 (BuyHold 10000 [100])
      = ((BuyHold 10000 [100]).getLastD 0 / (BuyHold 10000 [100]).getD 0 0 - 1) * 100 ∧
    ∀ curve : List ℚ, perf 10000 curve = (curve.getLastD 0 / 10000 - 1) * 100 :=
  c3_perf_formula (1/10) 10000 100 [] [0] (by norm_num) (by norm_num)

theorem positionSeries_binary (thresh : ℚ) :
    ∀ (gs cs : List (Option ℚ)) (v : ℕ), v ∈ positionSeries thresh gs cs → v = 0 ∨ v = 1 := by
  intro gs
  induction gs with
  | nil => intro cs v hv; simp [positionSeries] at hv
  | cons g gs ih =>
      intro cs v hv
      cases cs with
      | nil => simp [positionSeries] at hv
      | cons c cs =>
          have hv2 : v ∈ Position thresh g c :: positionSeries thresh gs cs := hv
          rcases List.mem_cons.mp hv2 with h | h
          · cases h
            unfold Position
            split
            · right; rfl
            · left; rfl
          · exact ih cs v h

/-- C6: the signal sets Position = 1 exactly when the guide future return is
defined and positive and the rolling correlation is defined and above the
threshold (the source configures the threshold as the constant 0.2); any NaN
input (modelled by `none`, which compares false as in numpy) yields
Position = 0, and every entry of the position series is a defined 0 or 1. -/
theorem c6_signal (thresh : ℚ) :
    (∀ g c : Option ℚ,
        (Position thresh g c = 1 ↔
          ∃ x y, g = some x ∧ c = some y ∧ 0 < x ∧ thresh < y) ∧
        ((g = none ∨ c = none) → Position thresh g c = 0)) ∧
    (∀ (gs cs : List (Option ℚ)) (v : ℕ),
        v ∈ positionSeries thresh gs cs → v = 0 ∨ v = 1) := by
  refine ⟨fun g c => ⟨?_, ?_⟩, positionSeries_binary thresh⟩
  · cases g <;> cases c <;> simp [Position, gtNaN]
  · rintro (rfl | rfl)
    · cases c <;> simp [Position, gtNaN]
    · cases g <;> simp [Position, gtNaN]

/-- C6 witness: the characterisation applied at concrete defined and undefined
inputs with the source's threshold 0.2. -/
theorem c6_signal_witness :
    Position (1/5) (some 1) (some 1) = 1 ∧ Position (1/5) none (some 1) = 0 := by
  have h := c6_signal (1/5)
  exact ⟨(h.1 (some 1) (some 1)).1.mpr ⟨1, 1, rfl, rfl, by norm_num, by norm_num⟩,
    (h.1 none (some 1)).2 (Or.inl rfl)⟩

theorem Trade_length (pos : List ℕ) : (Trade pos).length = pos.length := by
  cases pos with
  | nil => rfl
  | cons p tl =>
      simp [Trade, List.length_zipWith]

theorem Trade_getD_succ (pos : List ℕ) (k : ℕ) (hk : k + 1 < pos.length) :
    (Trade pos).getD (k + 1) 0
      = ((pos.getD (k + 1) 0 : ℤ) - (pos.getD k 0 : ℤ)).natAbs := by
  cases pos with
  | nil => simp at hk
  | cons p tl =>
      have hk2 : k < tl.length := by simpa using hk
      have hlen : k < (List.zipWith
          (fun (prev cur : ℕ) => ((cur : ℤ) - (prev : ℤ)).natAbs) (p :: tl) tl).length := by
        simp [List.length_zipWith]
        omega
      rw [show Trade (p :: tl)
            = 0 :: List.zipWith (fun (prev cur : ℕ) => ((cur : ℤ) - (prev : ℤ)).natAbs)
                (p :: tl) tl from rfl,
          List.getD_cons_succ,
          List.getD_eq_getElem _ _ hlen, List.getElem_zipWith,
          List.getD_eq_getElem _ _ hk, List.getD_eq_getElem _ _ (by omega : k < (p :: tl).length)]
      simp

/-- C7: for a binary position signal, the transition series carries no trade
flag at index 0 whatever the position there is, and for every index i > 0 it
flags a trade (value 1) exactly when the position differs from the prior day's
position. -/
theorem c7_transitions (pos : List ℕ) (hbin : ∀ q ∈ pos, q = 0 ∨ q = 1) :
    (Trade pos).length = pos.length ∧
    (Trade pos).getD 0 0 = 0 ∧
    (∀ i, 0 < i → i < pos.length →
      ((Trade pos).getD i 0 = 1 ↔ pos.getD i 0 ≠ pos.getD (i - 1) 0)) := by
  refine ⟨Trade_length pos, Trade_getD_zero pos, ?_⟩
  intro i h0 hi
  obtain ⟨k, rfl⟩ : ∃ k, i = k + 1 := ⟨i - 1, by omega⟩
  have ha : pos.getD (k + 1) 0 ∈ pos := by
    rw [List.getD_eq_getElem _ _ hi]
    exact List.getElem_mem hi
  have hb : pos.getD k 0 ∈ pos := by
    rw [List.getD_eq_getElem _ _ (by omega : k < pos.length)]
    exact List.getElem_mem (by omega)
  rw [Trade_getD_succ pos k hi]
  simp only [Nat.add_sub_cancel]
  rcases hbin _ ha with h1 | h1 <;> rcases hbin _ hb with h2 | h2 <;>
    rw [h1, h2] <;> decide

/-- C7 witness: the transition characterisation instantiated on the signal
[0, 1]. -/
theorem c7_transitions_witness :
    (Trade [0, 1]).length = ([0, 1] : List ℕ).length ∧
    (Trade [0, 1]).getD 0 0 = 0 ∧
    (∀ i, 0 < i → i < ([0, 1] : List ℕ).length →
      ((Trade [0, 1]).getD i 0 = 1 ↔
        ([0, 1] : List ℕ).getD i 0 ≠ ([0, 1] : List ℕ).getD (i - 1) 0)) :=
  c7_transitions [0, 1] (by decide)

/-- Number of flagged trade events among days 0..n-1; the loop multiplies the
capital by `1 - fee` once for each day `j` with `trade_vals[j] == 1`. -/
def tradeCount (trade : List ℕ) (n : ℕ) : ℕ :=
  ((List.range n).filter (fun j => decide (trade.getD j 0 = 1))).length

/-- Product of the growth factors applied by the loop among days 0..n-1: day
`i` contributes `1 + rets[i]` exactly when `i > 0` and the position held on
day `i - 1` was 1. -/
def growthTo (rets : List ℚ) (pos : List ℕ) (n : ℕ) : ℚ :=
  (((List.range n).filter
      (fun i => decide (0 < i ∧ pos.getD (i - 1) 0 = 1))).map
    (fun i => 1 + rets.getD i 0)).prod

/-- The spec-side quantity of C5: the product of `1 + dailyReturn i` over all
window days `i` whose prior-day position was 1. -/
def specGrowthProduct (rets : List ℚ) (pos : List ℕ) : ℚ :=
  growthTo rets pos rets.length

theorem tradeCount_succ (trade : List ℕ) (n : ℕ) :
    tradeCount trade (n + 1)
      = tradeCount trade n + (if trade.getD n 0 = 1 then 1 else 0) := by
  unfold tradeCount
  rw [List.range_succ, List.filter_append, List.length_append]
  congr 1
  by_cases h : trade.getD n 0 = 1
  · rw [if_pos h, List.filter_singleton, decide_eq_true h, Bool.cond_true]
    rfl
  · rw [if_neg h, List.filter_singleton, decide_eq_false h, Bool.cond_false]
    rfl

theorem growthTo_succ (rets : List ℚ) (pos : List ℕ) (n : ℕ) :
    growthTo rets pos (n + 1)
      = growthTo rets pos n *
        (if 0 < n ∧ pos.getD (n - 1) 0 = 1 then 1 + rets.getD n 0 else 1) := by
  unfold growthTo
  rw [List.range_succ, List.filter_append, List.map_append, List.prod_append]
  congr 1
  by_cases h : 0 < n ∧ pos.getD (n - 1) 0 = 1
  · rw [if_pos h, List.filter_singleton, decide_eq_true h, Bool.cond_true]
    rw [List.map_singleton]
    exact List.prod_singleton
  · rw [if_neg h, List.filter_singleton, decide_eq_false h, Bool.cond_false]
    rfl

theorem stratCap_closed (fee init : ℚ) (rets : List ℚ) (pos trade : List ℕ) :
    ∀ i, stratCap fee init rets pos trade i
      = init * growthTo rets pos (i + 1) * (1 - fee) ^ tradeCount trade (i + 1) := by
  intro i
  induction i with
  | zero =>
      rw [growthTo_succ, tradeCount_succ]
      rw [if_neg (show ¬(0 < 0 ∧ pos.getD (0 - 1) 0 = 1) from fun hc => by omega)]
      show (if trade.getD 0 0 = 1 then init * (1 - fee) else init) = _
      have hg : growthTo rets pos 0 = 1 := rfl
      have ht : tradeCount trade 0 = 0 := rfl
      rw [hg, ht]
      by_cases h : trade.getD 0 0 = 1
      · rw [if_pos h, if_pos h]
        ring
      · rw [if_neg h, if_neg h]
        ring
  | succ j ih =>
      rw [growthTo_succ, tradeCount_succ, Nat.add_sub_cancel]
      show (if trade.getD (j + 1) 0 = 1
            then (if pos.getD j 0 = 1
                  then stratCap fee init rets pos trade j * (1 + rets.getD (j + 1) 0)
                  else stratCap fee init rets pos trade j) * (1 - fee)
            else (if pos.getD j 0 = 1
                  then stratCap fee init rets pos trade j * (1 + rets.getD (j + 1) 0)
                  else stratCap fee init rets pos trade j)) = _
      rw [ih]
      by_cases h2 : trade.getD (j + 1) 0 = 1
      · rw [if_pos h2, if_pos h2]
        by_cases h1 : pos.getD j 0 = 1
        · rw [if_pos h1, if_pos (show 0 < j + 1 ∧ pos.getD j 0 = 1 from ⟨Nat.succ_pos j, h1⟩),
            pow_succ]
          ring
        · rw [if_neg h1, if_neg (show ¬(0 < j + 1 ∧ pos.getD j 0 = 1) from fun hc => h1 hc.2),
            pow_succ]
          ring
      · rw [if_neg h2, if_neg h2, Nat.add_zero]
        by_cases h1 : pos.getD j 0 = 1
        · rw [if_pos h1, if_pos (show 0 < j + 1 ∧ pos.getD j 0 = 1 from ⟨Nat.succ_pos j, h1⟩)]
          ring
        · rw [if_neg h1, if_neg (show ¬(0 < j + 1 ∧ pos.getD j 0 = 1) from fun hc => h1 hc.2)]
          ring

theorem strat_path_getLastD (fee init : ℚ) (rets : List ℚ) (pos trade : List ℕ)
    (m : ℕ) (hm : rets.length = m + 1) :
    (strat_path fee init rets pos trade).getLastD 0
      = stratCap fee init rets pos trade m := by
  rw [strat_path, hm, List.range_succ, List.map_append, List.map_singleton,
    List.getLastD_concat]

/-- C5: whenever the trade-event series flags exactly two events over the
window, the final strategy capital is exactly the initial capital times the
product of the growth factors of the days whose prior-day position was 1,
times `(1 - feeRate)^2`: each flagged transition is charged the single
proportional fee exactly once, regardless of direction. -/
theorem c5_two_trades (fee init : ℚ) (rets : List ℚ) (pos trade : List ℕ)
    (hne : rets ≠ []) (hcount : tradeCount trade rets.length = 2) :
    (strat_path fee init rets pos trade).getLastD 0
      = init * specGrowthProduct rets pos * (1 - fee) ^ 2 := by
  obtain ⟨m, hm⟩ : ∃ m, rets.length = m + 1 := by
    cases rets with
    | nil => exact absurd rfl hne
    | cons r tl => exact ⟨tl.length, rfl⟩
  have hc2 : tradeCount trade (m + 1) = 2 := by rw [← hm]; exact hcount
  rw [strat_path_getLastD fee init rets pos trade m hm, stratCap_closed, hc2]
  unfold specGrowthProduct
  rw [hm]

/-- C5 witness: on the scenario data (trade events flagged on days 1 and 3),
the final capital is initial capital times the growth product times
`(1 - 1/10)^2`. -/
theorem c5_two_trades_witness :
    (strat_path (1/10) 10000 (retsOf [100, 100, 110, 110]) [0, 1, 1, 0]
        (Trade [0, 1, 1, 0])).getLastD 0
      = 10000 * specGrowthProduct (retsOf [100, 100, 110, 110]) [0, 1, 1, 0]
          * (1 - 1/10) ^ 2 := by
  refine c5_two_trades (1/10) 10000 (retsOf [100, 100, 110, 110]) [0, 1, 1, 0]
    (Trade [0, 1, 1, 0]) (by simp [retsOf]) ?_
  norm_num [tradeCount, Trade, retsOf, List.range_succ]

theorem pairRet_pos :
    ∀ (l : List ℚ) (a : ℚ), 0 < a → (∀ q ∈ l, 0 < q) →
      ∀ r ∈ List.zipWith (fun prev cur => cur / prev - 1) (a :: l) l, 0 < 1 + r := by
  intro l
  induction l with
  | nil => intro a ha hl r hr; simp at hr
  | cons b tl ih =>
      intro a ha hl r hr
      have hb : 0 < b := hl b (List.mem_cons_self b tl)
      rw [List.zipWith_cons_cons] at hr
      rcases List.mem_cons.mp hr with rfl | hr2
      · have hba : 0 < b / a := div_pos hb ha
        linarith
      · exact ih b hb (fun q hq => hl q (List.mem_cons_of_mem b hq)) r hr2

theorem retsOf_growth_pos (prices : List ℚ) (hp : ∀ q ∈ prices, 0 < q) :
    ∀ r ∈ retsOf prices, 0 < 1 + r := by
  cases prices with
  | nil => intro r hr; simp [retsOf] at hr
  | cons p tl =>
      intro r hr
      rw [retsOf] at hr
      rcases List.mem_cons.mp hr with rfl | hr2
      · norm_num
      · exact pairRet_pos tl p (hp p (List.mem_cons_self p tl))
          (fun q hq => hp q (List.mem_cons_of_mem p hq)) r hr2

theorem retsOf_getD_growth_nonneg (prices : List ℚ) (hp : ∀ q ∈ prices, 0 < q) (i : ℕ) :
    0 ≤ 1 + (retsOf prices).getD i 0 := by
  by_cases hi : i < (retsOf prices).length
  · have hm : (retsOf prices).getD i 0 ∈ retsOf prices := by
      rw [List.getD_eq_getElem _ _ hi]
      exact List.getElem_mem hi
    have := retsOf_growth_pos prices hp _ hm
    linarith
  · rw [List.getD_eq_default _ _ (le_of_not_lt hi)]
    norm_num

theorem stratCap_fee_mono_aux (f1 f2 init : ℚ) (rets : List ℚ) (pos trade : List ℕ)
    (hf1 : 0 ≤ f1) (h12 : f1 ≤ f2) (hf2 : f2 ≤ 1) (hinit : 0 ≤ init)
    (hr : ∀ i, 0 ≤ 1 + rets.getD i 0) :
    ∀ i, 0 ≤ stratCap f2 init rets pos trade i ∧
      stratCap f2 init rets pos trade i ≤ stratCap f1 init rets pos trade i := by
  intro i
  induction i with
  | zero =>
      by_cases h : trade.getD 0 0 = 1
      · have e2 : stratCap f2 init rets pos trade 0 = init * (1 - f2) := by
          show (if trade.getD 0 0 = 1 then init * (1 - f2) else init) = _
          rw [if_pos h]
        have e1 : stratCap f1 init rets pos trade 0 = init * (1 - f1) := by
          show (if trade.getD 0 0 = 1 then init * (1 - f1) else init) = _
          rw [if_pos h]
        rw [e1, e2]
        constructor
        · exact mul_nonneg hinit (by linarith)
        · exact mul_le_mul_of_nonneg_left (by linarith) hinit
      · have e2 : stratCap f2 init rets pos trade 0 = init := by
          show (if trade.getD 0 0 = 1 then init * (1 - f2) else init) = _
          rw [if_neg h]
        have e1 : stratCap f1 init rets pos trade 0 = init := by
          show (if trade.getD 0 0 = 1 then init * (1 - f1) else init) = _
          rw [if_neg h]
        rw [e1, e2]
        exact ⟨hinit, le_refl init⟩
  | succ j ih =>
      obtain ⟨h2pos, hle⟩ := ih
      have h1pos : 0 ≤ stratCap f1 init rets pos trade j := le_trans h2pos hle
      have hrj : 0 ≤ 1 + rets.getD (j + 1) 0 := hr (j + 1)
      have hd2 : 0 ≤ (if pos.getD j 0 = 1
          then stratCap f2 init rets pos trade j * (1 + rets.getD (j + 1) 0)
          else stratCap f2 init rets pos trade j) := by
        by_cases h1 : pos.getD j 0 = 1
        · rw [if_pos h1]; exact mul_nonneg h2pos hrj
        · rw [if_neg h1]; exact h2pos
      have hd21 : (if pos.getD j 0 = 1
          then stratCap f2 init rets pos trade j * (1 + rets.getD (j + 1) 0)
          else stratCap f2 init rets pos trade j)
          ≤ (if pos.getD j 0 = 1
          then stratCap f1 init rets pos trade j * (1 + rets.getD (j + 1) 0)
          else stratCap f1 init rets pos trade j) := by
        by_cases h1 : pos.getD j 0 = 1
        · rw [if_pos h1, if_pos h1]; exact mul_le_mul_of_nonneg_right hle hrj
        · rw [if_neg h1, if_neg h1]; exact hle
      have hd1 : 0 ≤ (if pos.getD j 0 = 1
          then stratCap f1 init rets pos trade j * (1 + rets.getD (j + 1) 0)
          else stratCap f1 init rets pos trade j) := le_trans hd2 hd21
      by_cases h2 : trade.getD (j + 1) 0 = 1
      · have e2 : stratCap f2 init rets pos trade (j + 1)
            = (if pos.getD j 0 = 1
               then stratCap f2 init rets pos trade j * (1 + rets.getD (j + 1) 0)
               else stratCap f2 init rets pos trade j) * (1 - f2) := by
          show (if trade.getD (j + 1) 0 = 1 then _ * (1 - f2) else _) = _
          rw [if_pos h2]
        have e1 : stratCap f1 init rets pos trade (j + 1)
            = (if pos.getD j 0 = 1
               then stratCap f1 init rets pos trade j * (1 + rets.getD (j + 1) 0)
               else stratCap f1 init rets pos trade j) * (1 - f1) := by
          show (if trade.getD (j + 1) 0 = 1 then _ * (1 - f1) else _) = _
          rw [if_pos h2]
        rw [e1, e2]
        constructor
        · exact mul_nonneg hd2 (by linarith)
        · calc (if pos.getD j 0 = 1
                then stratCap f2 init rets pos trade j * (1 + rets.getD (j + 1) 0)
                else stratCap f2 init rets pos trade j) * (1 - f2)
              ≤ (if pos.getD j 0 = 1
                then stratCap f1 init rets pos trade j * (1 + rets.getD (j + 1) 0)
                else stratCap f1 init rets pos trade j) * (1 - f2) :=
                mul_le_mul_of_nonneg_right hd21 (by linarith)
            _ ≤ (if pos.getD j 0 = 1
                then stratCap f1 init rets pos trade j * (1 + rets.getD (j + 1) 0)
                else stratCap f1 init rets pos trade j) * (1 - f1) :=
                mul_le_mul_of_nonneg_left (by linarith) hd1
      · have e2 : stratCap f2 init rets pos trade (j + 1)
            = (if pos.getD j 0 = 1
               then stratCap f2 init rets pos trade j * (1 + rets.getD (j + 1) 0)
               else stratCap f2 init rets pos trade j) := by
          show (if trade.getD (j + 1) 0 = 1 then _ * (1 - f2) else _) = _
          rw [if_neg h2]
        have e1 : stratCap f1 init rets pos trade (j + 1)
            = (if pos.getD j 0 = 1
               then stratCap f1 init rets pos trade j * (1 + rets.getD (j + 1) 0)
               else stratCap f1 init rets pos trade j) := by
          show (if trade.getD (j + 1) 0 = 1 then _ * (1 - f1) else _) = _
          rw [if_neg h2]
        rw [e1, e2]
        exact ⟨hd2, hd21⟩

/-- C10: for fixed positive prices, position signal, trade events and positive
initial capital, every day's strategy capital is non-increasing in the fee
rate: with 0 ≤ f1 ≤ f2 < 1, the capital under f2 is at most the capital under
f1 on every day of the window. -/
theorem c10_fee_monotone (f1 f2 init : ℚ) (prices : List ℚ) (pos trade : List ℕ)
    (hf1 : 0 ≤ f1) (h12 : f1 ≤ f2) (hf2 : f2 < 1) (hinit : 0 < init)
    (hp : ∀ q ∈ prices, 0 < q) :
    ∀ i, i < prices.length →
      (strat_path f2 init (retsOf prices) pos trade).getD i 0
        ≤ (strat_path f1 init (retsOf prices) pos trade).getD i 0 := by
  intro i hi
  have hlen : i < (retsOf prices).length := by rw [retsOf_length]; exact hi
  rw [strat_path_getD _ _ _ _ _ i hlen, strat_path_getD _ _ _ _ _ i hlen]
  exact (stratCap_fee_mono_aux f1 f2 init (retsOf prices) pos trade hf1 h12
    (le_of_lt hf2) (le_of_lt hinit) (retsOf_getD_growth_nonneg prices hp) i).2

/-- C10 witness: second-day capital under fee 1/2 is at most the one under
fee 0 on the concrete window [100, 110] with an entry on day 1. -/
theorem c10_fee_monotone_witness :
    (strat_path (1/2) 10000 (retsOf [100, 110]) [1, 1] [0, 1]).getD 1 0
      ≤ (strat_path 0 10000 (retsOf [100, 110]) [1, 1] [0, 1]).getD 1 0 :=
  c10_fee_monotone 0 (1/2) 10000 [100, 110] [1, 1] [0, 1]
    (by norm_num) (by norm_num) (by norm_num) (by norm_num)
    (by intro q hq; fin_cases hq <;> norm_num) 1 (by norm_num)

/-- One iteration of the DCA loop's state update on (cash_spent, shares):
when the row is the first trading day of its month and cash_spent < initial
capital, buy `budget * (1 - fee) / price` shares and add the nominal budget to
cash_spent; otherwise leave the state unchanged (app.py lines 72-74). -/
def dcaStep (fee init budget : ℚ) (st : ℚ × ℚ) (row : Bool × ℚ) : ℚ × ℚ :=
  if row.1 = true ∧ st.1 < init then
    (st.1 + budget, st.2 + budget * (1 - fee) / row.2)
  else st

theorem DCA_states_length (fee init budget : ℚ) :
    ∀ (l : List (Bool × ℚ)) (cash shares : ℚ),
      (DCA_states fee init budget cash shares l).length = l.length := by
  intro l
  induction l with
  | nil => intro cash shares; rfl
  | cons row tl ih =>
      intro cash shares
      obtain ⟨flag, p⟩ := row
      by_cases hcond : flag = true ∧ cash < init
      · rw [DCA_states, if_pos hcond]
        simp [ih]
      · rw [DCA_states, if_neg hcond]
        simp [ih]

theorem firstFlags_length : ∀ (ms seen : List ℕ), (firstFlags seen ms).length = ms.length := by
  intro ms
  induction ms with
  | nil => intro seen; rfl
  | cons m tl ih => intro seen; simp [firstFlags, ih]

theorem DCA_states_getD_zero (fee init budget : ℚ) (c0 s0 : ℚ) (row : Bool × ℚ)
    (tl : List (Bool × ℚ)) :
    (((DCA_states fee init budget c0 s0 (row :: tl)).getD 0 (0, 0, 0)).1,
        ((DCA_states fee init budget c0 s0 (row :: tl)).getD 0 (0, 0, 0)).2.1)
      = dcaStep fee init budget (c0, s0) row ∧
    ((DCA_states fee init budget c0 s0 (row :: tl)).getD 0 (0, 0, 0)).2.2
      = ((DCA_states fee init budget c0 s0 (row :: tl)).getD 0 (0, 0, 0)).2.1 * row.2
        + (init - ((DCA_states fee init budget c0 s0 (row :: tl)).getD 0 (0, 0, 0)).1) := by
  obtain ⟨flag, p⟩ := row
  by_cases hcond : flag = true ∧ c0 < init
  · have htr : DCA_states fee init budget c0 s0 ((flag, p) :: tl)
        = (c0 + budget, s0 + budget * (1 - fee) / p,
            (s0 + budget * (1 - fee) / p) * p + (init - (c0 + budget)))
          :: DCA_states fee init budget (c0 + budget) (s0 + budget * (1 - fee) / p) tl := by
      rw [DCA_states, if_pos hcond]
    rw [htr]
    refine ⟨?_, rfl⟩
    rw [List.getD_cons_zero, dcaStep, if_pos (by exact hcond)]
  · have htr : DCA_states fee init budget c0 s0 ((flag, p) :: tl)
        = (c0, s0, s0 * p + (init - c0)) :: DCA_states fee init budget c0 s0 tl := by
      rw [DCA_states, if_neg hcond]
    rw [htr]
    refine ⟨?_, rfl⟩
    rw [List.getD_cons_zero, dcaStep, if_neg (by exact hcond)]

theorem DCA_states_getD_succ (fee init budget : ℚ) :
    ∀ (l : List (Bool × ℚ)) (c0 s0 : ℚ) (k : ℕ), k + 1 < l.length →
      (((DCA_states fee init budget c0 s0 l).getD (k + 1) (0, 0, 0)).1,
          ((DCA_states fee init budget c0 s0 l).getD (k + 1) (0, 0, 0)).2.1)
        = dcaStep fee init budget
            (((DCA_states fee init budget c0 s0 l).getD k (0, 0, 0)).1,
              ((DCA_states fee init budget c0 s0 l).getD k (0, 0, 0)).2.1)
            (l.getD (k + 1) (false, 0)) ∧
      ((DCA_states fee init budget c0 s0 l).getD (k + 1) (0, 0, 0)).2.2
        = ((DCA_states fee init budget c0 s0 l).getD (k + 1) (0, 0, 0)).2.1
            * (l.getD (k + 1) (false, 0)).2
          + (init - ((DCA_states fee init budget c0 s0 l).getD (k + 1) (0, 0, 0)).1) := by
  intro l
  induction l with
  | nil => intro c0 s0 k hk; simp at hk
  | cons row tl ih =>
      intro c0 s0 k hk
      obtain ⟨flag, p⟩ := row
      have hk2 : k < tl.length := by
        simp only [List.length_cons] at hk
        omega
      by_cases hcond : flag = true ∧ c0 < init
      · have htr : DCA_states fee init budget c0 s0 ((flag, p) :: tl)
            = (c0 + budget, s0 + budget * (1 - fee) / p,
                (s0 + budget * (1 - fee) / p) * p + (init - (c0 + budget)))
              :: DCA_states fee init budget (c0 + budget) (s0 + budget * (1 - fee) / p) tl := by
          rw [DCA_states, if_pos hcond]
        rw [htr]
        cases k with
        | zero =>
            cases tl with
            | nil => simp at hk2
            | cons row2 tl2 =>
                simp only [List.getD_cons_succ, List.getD_cons_zero]
                exact DCA_states_getD_zero fee init budget
                  (c0 + budget) (s0 + budget * (1 - fee) / p) row2 tl2
        | succ k3 =>
            simp only [List.getD_cons_succ]
            exact ih (c0 + budget) (s0 + budget * (1 - fee) / p) k3 (by omega)
      · have htr : DCA_states fee init budget c0 s0 ((flag, p) :: tl)
            = (c0, s0, s0 * p + (init - c0)) :: DCA_states fee init budget c0 s0 tl := by
          rw [DCA_states, if_neg hcond]
        rw [htr]
        cases k with
        | zero =>
            cases tl with
            | nil => simp at hk2
            | cons row2 tl2 =>
                simp only [List.getD_cons_succ, List.getD_cons_zero]
                exact DCA_states_getD_zero fee init budget c0 s0 row2 tl2
        | succ k3 =>
            simp only [List.getD_cons_succ]
            exact ih c0 s0 k3 (by omega)

theorem DCA_states_cash_le (fee init : ℚ) (hinit : 0 < init) :
    ∀ (l : List (Bool × ℚ)) (c0 s0 : ℚ) (k : ℕ), k ≤ 12 → c0 = (k : ℚ) * (init / 12) →
      ∀ st ∈ DCA_states fee init (monthly_budget init) c0 s0 l, st.1 ≤ init := by
  have h12 : (12 : ℚ) * (init / 12) = init := by field_simp
  have hq : 0 < init / 12 := by positivity
  intro l
  induction l with
  | nil => intro c0 s0 k hk hc st hst; simp [DCA_states] at hst
  | cons row tl ih =>
      intro c0 s0 k hk hc st hst
      obtain ⟨flag, p⟩ := row
      have hkq : (k : ℚ) ≤ 12 := by exact_mod_cast hk
      have hbound : c0 ≤ init := by
        have hmul : (k : ℚ) * (init / 12) ≤ 12 * (init / 12) :=
          mul_le_mul_of_nonneg_right hkq (le_of_lt hq)
        rw [hc]
        linarith
      by_cases hcond : flag = true ∧ c0 < init
      · have hklt : k < 12 := by
          by_contra hcon
          push_neg at hcon
          have h12k : (12 : ℚ) ≤ (k : ℚ) := by exact_mod_cast hcon
          have hmul : 12 * (init / 12) ≤ (k : ℚ) * (init / 12) :=
            mul_le_mul_of_nonneg_right h12k (le_of_lt hq)
          have : init ≤ c0 := by rw [hc]; linarith
          linarith [hcond.2]
        have hc2 : c0 + monthly_budget init = ((k + 1 : ℕ) : ℚ) * (init / 12) := by
          rw [hc, monthly_budget]
          push_cast
          ring
        have hb2 : c0 + monthly_budget init ≤ init := by
          have hk1q : ((k + 1 : ℕ) : ℚ) ≤ 12 := by exact_mod_cast hklt
          have hmul : ((k + 1 : ℕ) : ℚ) * (init / 12) ≤ 12 * (init / 12) :=
            mul_le_mul_of_nonneg_right hk1q (le_of_lt hq)
          rw [hc2]
          linarith
        rw [DCA_states, if_pos hcond] at hst
        rcases List.mem_cons.mp hst with rfl | hst2
        · exact hb2
        · exact ih (c0 + monthly_budget init) (s0 + monthly_budget init * (1 - fee) / p)
            (k + 1) hklt hc2 st hst2
      · rw [DCA_states, if_neg hcond] at hst
        rcases List.mem_cons.mp hst with rfl | hst2
        · exact hbound
        · exact ih c0 s0 k hk hc st hst2

theorem firstFlags_getD_iff :
    ∀ (ms seen : List ℕ) (i : ℕ), i < ms.length →
      ((firstFlags seen ms).getD i false = true ↔
        (ms.getD i 0 ∉ seen ∧ ∀ j < i, ms.getD j 0 ≠ ms.getD i 0)) := by
  intro ms
  induction ms with
  | nil => intro seen i hi; simp at hi
  | cons m tl ih =>
      intro seen i hi
      cases i with
      | zero =>
          show ((! seen.contains m) :: firstFlags (m :: seen) tl).getD 0 false = true ↔ _
          simp [List.getD_cons_zero]
      | succ k =>
          have hk : k < tl.length := by
            simp only [List.length_cons] at hi
            omega
          show (firstFlags (m :: seen) tl).getD k false = true ↔ _
          rw [ih (m :: seen) k hk]
          simp only [List.getD_cons_succ, List.mem_cons, not_or]
          constructor
          · rintro ⟨⟨hne, hnotin⟩, hall⟩
            refine ⟨hnotin, ?_⟩
            intro j hj
            cases j with
            | zero =>
                rw [List.getD_cons_zero]
                exact fun h => hne h.symm
            | succ j2 =>
                rw [List.getD_cons_succ]
                exact hall j2 (by omega)
          · rintro ⟨hnotin, hall⟩
            refine ⟨⟨?_, hnotin⟩, ?_⟩
            · have := hall 0 (Nat.succ_pos k)
              rw [List.getD_cons_zero] at this
              exact fun h => this h.symm
            · intro j hj
              have := hall (j + 1) (by omega)
              rw [List.getD_cons_succ] at this
              exact this

theorem zip_getD {α β : Type} (l1 : List α) (l2 : List β) (d1 : α) (d2 : β) (i : ℕ)
    (h1 : i < l1.length) (h2 : i < l2.length) :
    (l1.zip l2).getD i (d1, d2) = (l1.getD i d1, l2.getD i d2) := by
  have hz : i < (l1.zip l2).length := by
    rw [List.length_zip]
    omega
  rw [List.getD_eq_getElem _ _ hz, List.getElem_zip,
    List.getD_eq_getElem _ _ h1, List.getD_eq_getElem _ _ h2]

/-- C8: for the DCA loop, on every window day the recorded capital equals
shares held times the day's price plus the un-deployed cash valued at par
(initialCapital - cashSpent); the cash spent never exceeds the initial
capital; the state changes only by the `dcaStep` purchase rule, which buys
`(monthlyBudget * (1 - feeRate)) / price` shares and adds the nominal
monthly budget (initialCapital / 12) to cashSpent exactly when the day is
flagged as a first trading day of its month and cashSpent < initialCapital;
and a day is flagged exactly when no earlier window day has that day's
calendar month. -/
theorem c8_dca_invariants (fee init : ℚ) (months : List ℕ) (prices : List ℚ)
    (hinit : 0 < init) (hlen : months.length = prices.length) :
    (∀ i, i < prices.length →
      ((DCA fee init months prices).getD i (0, 0, 0)).2.2
        = ((DCA fee init months prices).getD i (0, 0, 0)).2.1 * prices.getD i 0
          + (init - ((DCA fee init months prices).getD i (0, 0, 0)).1) ∧
      ((DCA fee init months prices).getD i (0, 0, 0)).1 ≤ init) ∧
    (0 < prices.length →
      (((DCA fee init months prices).getD 0 (0, 0, 0)).1,
          ((DCA fee init months prices).getD 0 (0, 0, 0)).2.1)
        = dcaStep fee init (monthly_budget init) (0, 0)
            ((firstFlags [] months).getD 0 false, prices.getD 0 0)) ∧
    (∀ k, k + 1 < prices.length →
      (((DCA fee init months prices).getD (k + 1) (0, 0, 0)).1,
          ((DCA fee init months prices).getD (k + 1) (0, 0, 0)).2.1)
        = dcaStep fee init (monthly_budget init)
            (((DCA fee init months prices).getD k (0, 0, 0)).1,
              ((DCA fee init months prices).getD k (0, 0, 0)).2.1)
            ((firstFlags [] months).getD (k + 1) false, prices.getD (k + 1) 0)) ∧
    (∀ i, i < prices.length →
      ((firstFlags [] months).getD i false = true ↔
        ∀ j < i, months.getD j 0 ≠ months.getD i 0)) := by
  have hfl : (firstFlags [] months).length = months.length := firstFlags_length months []
  have hziplen : ((firstFlags [] months).zip prices).length = prices.length := by
    rw [List.length_zip, hfl, hlen, min_self]
  have htrlen : (DCA fee init months prices).length = prices.length := by
    rw [DCA, DCA_states_length, hziplen]
  have hrow : ∀ i, i < prices.length →
      ((firstFlags [] months).zip prices).getD i (false, 0)
        = ((firstFlags [] months).getD i false, prices.getD i 0) := by
    intro i hi
    exact zip_getD _ _ _ _ i (by rw [hfl, hlen]; exact hi) hi
  refine ⟨?_, ?_, ?_, ?_⟩
  · intro i hi
    constructor
    · cases i with
      | zero =>
          have h0' : 0 < ((firstFlags [] months).zip prices).length := by
            rw [hziplen]; exact hi
          cases hzl : (firstFlags [] months).zip prices with
          | nil => rw [hzl] at h0'; simp at h0'
          | cons row tl =>
              have hrow0 := hrow 0 hi
              rw [hzl, List.getD_cons_zero] at hrow0
              have hz := (DCA_states_getD_zero fee init (monthly_budget init) 0 0 row tl).2
              have hp2 : row.2 = prices.getD 0 0 := by rw [hrow0]
              rw [DCA, hzl, hz, hp2]
      | succ k =>
          have hsucc := (DCA_states_getD_succ fee init (monthly_budget init)
            ((firstFlags [] months).zip prices) 0 0 k (by rw [hziplen]; exact hi)).2
          have hp2 : (((firstFlags [] months).zip prices).getD (k + 1) (false, 0)).2
              = prices.getD (k + 1) 0 := by rw [hrow (k + 1) hi]
          rw [DCA, hsucc, hp2]
    · have hi' : i < (DCA fee init months prices).length := by rw [htrlen]; exact hi
      have hmem : (DCA fee init months prices).getD i (0, 0, 0)
          ∈ DCA fee init months prices := by
        rw [List.getD_eq_getElem _ _ hi']
        exact List.getElem_mem hi'
      rw [DCA] at hmem
      exact DCA_states_cash_le fee init hinit _ 0 0 0 (by norm_num) (by norm_num) _ hmem
  · intro h0
    have h0' : 0 < ((firstFlags [] months).zip prices).length := by
      rw [hziplen]; exact h0
    cases hzl : (firstFlags [] months).zip prices with
    | nil => rw [hzl] at h0'; simp at h0'
    | cons row tl =>
        have hrow0 := hrow 0 h0
        rw [hzl, List.getD_cons_zero] at hrow0
        have hz := (DCA_states_getD_zero fee init (monthly_budget init) 0 0 row tl).1
        rw [DCA, hzl, hz, hrow0]
  · intro k hksucc
    have hsucc := (DCA_states_getD_succ fee init (monthly_budget init)
      ((firstFlags [] months).zip prices) 0 0 k (by rw [hziplen]; exact hksucc)).1
    rw [DCA, hsucc, hrow (k + 1) hksucc]
  · intro i hi
    have hmi : i < months.length := by rw [hlen]; exact hi
    rw [firstFlags_getD_iff months [] i hmi]
    simp

/-- C8 witness: the invariants applied to a concrete two-day window, reading
off the day-0 cash bound. -/
theorem c8_dca_invariants_witness :
    ((DCA (1/10) 10000 [1, 1] [100, 100]).getD 0 (0, 0, 0)).1 ≤ 10000 :=
  ((c8_dca_invariants (1/10) 10000 [1, 1] [100, 100] (by norm_num) rfl).1
    0 (by norm_num)).2

theorem BuyHold_length (init : ℚ) (prices : List ℚ) :
    (BuyHold init prices).length = prices.length := by
  cases prices with
  | nil => rfl
  | cons p tl => simp [BuyHold]

/-- C9 counterexample: feeRate 2 lies outside [0,1), yet the code computes the
strategy equity curve instead of rejecting the configuration — there is no
InvalidConfigError and no feeRate guard — and the day-1 capital is -10000. -/
theorem c9_no_guard_cex :
    strat_path 2 10000 (retsOf [100, 100]) [0, 1] (Trade [0, 1]) = [10000, -10000] ∧
    ¬ ((0 : ℚ) ≤ 2 ∧ (2 : ℚ) < 1) := by
  constructor
  · norm_num [strat_path, stratCap, Trade, retsOf, List.range_succ]
  · norm_num

/-- C9 (amended): the code performs no configuration validation and raises no
typed InvalidConfigError: for every feeRate — including values outside
[0,1) — and every initial capital, the three equity-curve computations
produce full-length curves rather than failing (with feeRate ≥ 1 the strategy
capital can become negative); out-of-range parameters are prevented only by
the UI input widgets, and the only error handling is a catch-all handler
that displays whatever exception reaches it. -/
theorem c9_curves_total (fee init : ℚ) (prices : List ℚ) (pos trade : List ℕ)
    (months : List ℕ) (hm : months.length = prices.length) :
    (strat_path fee init (retsOf prices) pos trade).length = prices.length ∧
    (BuyHold init prices).length = prices.length ∧
    (DCA_curve fee init months prices).length = prices.length := by
  refine ⟨?_, BuyHold_length init prices, ?_⟩
  · rw [strat_path_length, retsOf_length]
  · rw [DCA_curve, List.length_map, DCA, DCA_states_length, List.length_zip,
      firstFlags_length, hm, min_self]

/-- C9 witness: with feeRate 2 the three curves still come out full-length. -/
theorem c9_curves_total_witness :
    (strat_path 2 10000 (retsOf [100, 100]) [0, 1] (Trade [0, 1])).length
        = ([100, 100] : List ℚ).length ∧
    (BuyHold 10000 [100, 100]).length = ([100, 100] : List ℚ).length ∧
    (DCA_curve 2 10000 [1, 1] [100, 100]).length = ([100, 100] : List ℚ).length :=
  c9_curves_total 2 10000 [100, 100] [0, 1] (Trade [0, 1]) [1, 1] rfl

end Trade2
